import Mathlib

/-!
# Verification of the Face recognizer and its service worker

Shallow embedding of the two source files of the repository:

* the recognizer (`FaceAPIRecognizer` in the unnamed main source file):
  descriptor store, persistence (`loadDB` / `saveDB`), `delete` / `replace`,
  `euclidean`, `matchDescriptor`, the acceptance decision of `verify`, and the
  enrollment collection loop of `enroll`;
* the service worker (`sw.js`): `isModelRequest` and the fetch-strategy
  dispatch, together with the `cacheFirst` and `staleWhileRevalidate`
  handlers.

Modelling conventions:

* JavaScript numbers are modelled as exact rationals `ℚ` (every finite IEEE
  double is a rational; rounding is out of scope).  Distances, which the
  source obtains through `Math.sqrt`, live in `ℝ`, and the running best /
  second-best values, initialised with `Number.POSITIVE_INFINITY`, live in
  `EReal` with `⊤` playing the role of `Infinity`.
* The JS `for (let i = 0; i < a.length; i++)` loop of `euclidean` is modelled
  by `List.zipWith` on the two vectors; the two differ only when the vectors
  have different lengths (where JS produces `NaN`), a situation the data
  model of the store rules out (all descriptors have the embedding length).
* Objects (`this.db`) are modelled as association lists in insertion order,
  which is the order `Object.entries` / `Object.keys` iterate in for
  string keys.
-/

/-- A face descriptor: a finite numeric vector (`Float32Array` in the source,
modelled with exact rational components). -/
abbrev Desc := List ℚ

/-- The in-memory descriptor store `this.db`: person name ↦ list of stored
descriptors, in insertion order. -/
abbrev Store := List (String × List Desc)

/-- Property read `this.db[name]`: the value stored under a key, if present. -/
def getEntry : Store → String → Option (List Desc)
  | [], _ => none
  | e :: s, n => if e.1 = n then some e.2 else getEntry s n

/-- Property write `this.db[name] = descriptors`: overwrite the value of an
existing key in place, or append a fresh key at the end (JS object insertion
order semantics). -/
def setEntry : Store → String → List Desc → Store
  | [], n, v => [(n, v)]
  | e :: s, n, v => if e.1 = n then (n, v) :: s else e :: setEntry s n v

/-- `delete this.db[name]`: remove the key from the object. -/
def delEntry (s : Store) (n : String) : Store :=
  s.filter (fun e => e.1 ≠ n)

/-- Sum of squared component differences, the accumulator `s` of the loop in
`euclidean` (`const d = a[i] - b[i]; s += d * d`). -/
def sumSq (a b : Desc) : ℚ :=
  (List.zipWith (fun x y => (x - y) * (x - y)) a b).foldl (· + ·) 0

/-- `static euclidean(a, b)`: Euclidean distance between two descriptors,
`Math.sqrt` of the summed squared differences. -/
noncomputable def euclidean (a b : Desc) : ℝ :=
  Real.sqrt (sumSq a b : ℝ)

/-- The record `{ bestName, bestDist, secondBest }` returned by
`matchDescriptor`. -/
structure MatchResult where
  bestName : String
  bestDist : EReal
  secondBest : EReal

/-- The inner loop of `matchDescriptor`: minimum distance from the query to
any of one person's stored descriptors, starting from
`Number.POSITIVE_INFINITY` (`⊤`). -/
noncomputable def personBest (q : Desc) (l : List Desc) : EReal :=
  l.foldl
    (fun pb stored =>
      if (euclidean q stored : EReal) < pb then (euclidean q stored : EReal) else pb)
    ⊤

/-- One iteration of the outer loop of `matchDescriptor`: update the running
top-2 (`best`, `second`, `bestName`) with one person's `personBest`. -/
noncomputable def matchStep (q : Desc) (acc : MatchResult) (e : String × List Desc) :
    MatchResult :=
  let pb := personBest q e.2
  if pb < acc.bestDist then ⟨e.1, pb, acc.bestDist⟩
  else if pb < acc.secondBest then ⟨acc.bestName, acc.bestDist, pb⟩
  else acc

/-- `matchDescriptor(desc)`: fold the top-2 update over `Object.entries(this.db)`
starting from `{ bestName: 'Unknown', best: Infinity, second: Infinity }`. -/
noncomputable def matchDescriptor (q : Desc) (db : Store) : MatchResult :=
  db.foldl (matchStep q) ⟨"Unknown", ⊤, ⊤⟩

/-- The per-frame decision of `verify`:
`accept = (bestDist <= distanceThreshold) && ((secondBest - bestDist) >= secondBestMargin)`,
`name = accept ? bestName : 'Unknown'`. -/
noncomputable def verifiedName (q : Desc) (db : Store) (distanceThreshold secondBestMargin : ℝ) :
    String :=
  let r := matchDescriptor q db
  if r.bestDist ≤ (distanceThreshold : EReal) ∧
      (secondBestMargin : EReal) ≤ r.secondBest - r.bestDist then
    r.bestName
  else "Unknown"

/-- Constructor default `distanceThreshold = 0.5`. -/
def defaultDistanceThreshold : ℝ := 0.5

/-- Constructor default `secondBestMargin = 0.05`. -/
def defaultSecondBestMargin : ℝ := 0.05

section MatchLemmas

/-- `personBest` is a fold of `min`: the branch
`if (dist < personBest) personBest = dist` computes the running minimum. -/
theorem personBest_eq_foldl_min (q : Desc) (l : List Desc) :
    personBest q l = l.foldl (fun pb s => min pb (euclidean q s : EReal)) ⊤ := by
  unfold personBest
  congr 1
  funext pb s
  rcases lt_or_le (euclidean q s : EReal) pb with h | h
  · rw [if_pos h, min_eq_right h.le]
  · rw [if_neg (not_lt.mpr h), min_eq_left h]

theorem foldl_min_le_init {l : List EReal} {init : EReal} :
    l.foldl min init ≤ init := by
  induction l generalizing init with
  | nil => exact le_refl _
  | cons x xs ih => exact le_trans ih (min_le_left _ _)

theorem foldl_min_le_mem {l : List EReal} {init x : EReal} (hx : x ∈ l) :
    l.foldl min init ≤ x := by
  induction l generalizing init with
  | nil => cases hx
  | cons y ys ih =>
    rw [List.foldl_cons]
    rcases List.mem_cons.mp hx with rfl | h
    · exact le_trans foldl_min_le_init (min_le_right _ _)
    · exact ih h

theorem le_foldl_min {l : List EReal} {init c : EReal}
    (hi : c ≤ init) (hl : ∀ x ∈ l, c ≤ x) :
    c ≤ l.foldl min init := by
  induction l generalizing init with
  | nil => exact hi
  | cons x xs ih =>
    exact ih (le_min hi (hl x (List.mem_cons_self x xs)))
      (fun y hy => hl y (List.mem_cons_of_mem x hy))

/-- A person with at least one stored descriptor has a finite best distance. -/
theorem personBest_lt_top {q : Desc} {l : List Desc} (h : l ≠ []) :
    personBest q l < ⊤ := by
  rcases List.exists_mem_of_ne_nil l h with ⟨d, hd⟩
  rw [personBest_eq_foldl_min]
  have : l.foldl (fun pb s => min pb (euclidean q s : EReal)) ⊤
      ≤ (euclidean q d : EReal) := by
    rw [← List.foldl_map (fun s => (euclidean q s : EReal)) min]
    exact foldl_min_le_mem (List.mem_map_of_mem _ hd)
  exact lt_of_le_of_lt this (EReal.coe_lt_top _)

/-- Distances are square roots, hence nonnegative; so is the person best. -/
theorem personBest_nonneg (q : Desc) (l : List Desc) :
    (0 : EReal) ≤ personBest q l := by
  rw [personBest_eq_foldl_min, ← List.foldl_map (fun s => (euclidean q s : EReal)) min]
  refine le_foldl_min le_top ?_
  intro x hx
  rcases List.mem_map.mp hx with ⟨d, _, rfl⟩
  exact_mod_cast EReal.coe_le_coe_iff.mpr (Real.sqrt_nonneg _)

/-- The distance from a descriptor to itself is zero. -/
theorem euclidean_self (a : Desc) : euclidean a a = 0 := by
  have h : sumSq a a = 0 := by
    unfold sumSq
    induction a with
    | nil => rfl
    | cons x xs ih =>
      simpa [List.zipWith, sub_self] using ih
  rw [euclidean, h]
  simp [Real.sqrt_zero]

end MatchLemmas

/-!
## Persistence: `loadDB` / `saveDB` and the localStorage slot

`saveDB` turns every `Float32Array` into a plain array (`Array.from`) and
stores `JSON.stringify` of the resulting object under the key
`'face-db:v1'`; `loadDB` reads the raw string, `JSON.parse`s it, converts
every entry back with `new Float32Array(arr)` and returns `{}` if anything
throws.  We embed the platform boundary by its outcome: a slot value
`none` is an absent key, `some none` is a present string on which
`JSON.parse` throws, and `some (some j)` is a string parsing to the JSON
value `j`.  JSON numbers are exact rationals (the platform's
stringify/parse of a finite double is value-preserving, and `Array.from` of
a `Float32Array` yields doubles that are exactly the stored float32
values). -/

/-- A parsed JSON value. -/
inductive Json where
  | null : Json
  | bool : Bool → Json
  | num : ℚ → Json
  | str : String → Json
  | arr : List Json → Json
  | obj : List (String × Json) → Json

/-- The serialization loop of `saveDB`:
`serializable[name] = this.db[name].map(f32 => Array.from(f32))`, then
`JSON.stringify`.  The produced JSON value. -/
def encodeDB (db : Store) : Json :=
  Json.obj (db.map fun e => (e.1, Json.arr (e.2.map fun d => Json.arr (d.map Json.num))))

/-- `ToNumber` on a JSON-parsed array element, as applied element-wise by the
`Float32Array` constructor to an array argument.  `null` is 0, booleans are
0/1, numbers are themselves.  Strings, objects and nested arrays coerce in JS
to `NaN` or to the number their string form denotes; no code path of the
repository ever stores or reads such values, and the model collapses them
to 0. -/
def toNumber : Json → ℚ
  | Json.null => 0
  | Json.bool b => if b then 1 else 0
  | Json.num q => q
  | Json.str _ => 0
  | Json.arr _ => 0
  | Json.obj _ => 0

/-- `new Float32Array(arr)` on a JSON-parsed value `arr`: an array argument is
converted element-wise; a nonnegative integer builds a zero-filled array of
that length, any other number throws a `RangeError`; `null` and booleans
coerce to lengths 0 and 0/1; a string argument iterates its characters
(each coercing to a digit or `NaN`, collapsed to 0 here as above); a plain
object without an iterator yields an empty typed array (its array-like
`length` lookup, absent from anything this repository persists, is not
modelled). -/
def float32OfJson : Json → Except Unit Desc
  | Json.arr l => Except.ok (l.map toNumber)
  | Json.num q =>
      if q.den = 1 ∧ 0 ≤ q then Except.ok (List.replicate q.num.toNat 0)
      else Except.error ()
  | Json.null => Except.ok []
  | Json.bool b => Except.ok (List.replicate (if b then 1 else 0) 0)
  | Json.str s => Except.ok (List.replicate s.length 0)
  | Json.obj _ => Except.ok []

/-- `obj[name].map(arr => new Float32Array(arr))`: only an array value has a
`.map` method; every other JSON value makes the expression throw a
`TypeError`, which the surrounding `try` of `loadDB` turns into `{}`. -/
def decodeEntryVal : Json → Except Unit (List Desc)
  | Json.arr l => l.mapM float32OfJson
  | _ => Except.error ()

/-- The conversion loop of `loadDB` over `Object.keys(obj)`.  A parsed object
is converted entry by entry in key insertion order; a parsed array is an
object whose keys are its indices; `Object.keys` of any primitive parse
result is empty, so the loop converts nothing and the value behaves as an
empty store downstream (`Object.entries` of it is empty), which the model
returns as `[]`. -/
def decodeDB : Json → Except Unit Store
  | Json.obj entries =>
      entries.mapM (fun e => (decodeEntryVal e.2).map (fun v => (e.1, v)))
  | Json.arr elems =>
      elems.enum.mapM (fun e => (decodeEntryVal e.2).map (fun v => (toString e.1, v)))
  | _ => Except.ok []

/-- `loadDB()`: absent key → `{}`; `JSON.parse` throwing → `{}` (the catch);
otherwise convert, with any conversion `TypeError`/`RangeError` also caught
to `{}`. -/
def loadDB : Option (Option Json) → Store
  | none => []
  | some none => []
  | some (some j) =>
      match decodeDB j with
      | Except.ok s => s
      | Except.error _ => []

/-- The recognizer's persistent state: the in-memory table `this.db` and the
localStorage slot under `'face-db:v1'`. -/
structure RecState where
  db : Store
  slot : Option (Option Json)

/-- `saveDB()`: serialize the current in-memory table into the slot. -/
def saveDB (st : RecState) : RecState :=
  { st with slot := some (some (encodeDB st.db)) }

/-- `delete(name)`: `delete this.db[name]; this.saveDB();`. -/
def deleteName (st : RecState) (name : String) : RecState :=
  saveDB { st with db := delEntry st.db name }

/-- `replace(name, descriptors)`: `this.db[name] = descriptors; this.saveDB();`. -/
def replace (st : RecState) (name : String) (descriptors : List Desc) : RecState :=
  saveDB { st with db := setEntry st.db name descriptors }

/-!
## Enrollment

The `enroll` loop polls `detectOne()` once per tick.  A tick's outcome is
`some descriptor` when a face of sufficient score and box width was found,
`none` otherwise.  The loop runs `while (this.running && poseIdx <
poseInstructions.length)`; clearing the `running` flag is modelled by the
tick list running out. -/

/-- The collection loop of `enroll`: state `(poseIdx, poseCount, collected)`,
advanced by one tick at a time.  On a successful detection the descriptor is
appended and the per-pose count incremented; reaching `samplesPerPose`
advances the pose index and resets the count. -/
def collectLoop (samplesPerPose numPoses : Nat) :
    List (Option Desc) → Nat → Nat → List Desc → List Desc
  | [], _, _, collected => collected
  | t :: ts, poseIdx, poseCount, collected =>
    if poseIdx < numPoses then
      match t with
      | none => collectLoop samplesPerPose numPoses ts poseIdx poseCount collected
      | some d =>
        if samplesPerPose ≤ poseCount + 1 then
          collectLoop samplesPerPose numPoses ts (poseIdx + 1) 0 (collected ++ [d])
        else
          collectLoop samplesPerPose numPoses ts poseIdx (poseCount + 1) (collected ++ [d])
    else collected

/-- The error message of `enroll` when no sample was collected. -/
def enrollFailureMsg : String :=
  "No high-quality face samples collected. Try better lighting and keep still."

/-- `enroll(name)` after the loop has finished: zero collected descriptors
throw the documented error with no mutation; otherwise `replace` stores the
full collected list and the call returns its length. -/
def enroll (samplesPerPose numPoses : Nat) (name : String)
    (ticks : List (Option Desc)) (st : RecState) : Except String Nat × RecState :=
  let collected := collectLoop samplesPerPose numPoses ticks 0 0 []
  if collected.isEmpty then (Except.error enrollFailureMsg, st)
  else (Except.ok collected.length, replace st name collected)

/-- Constructor default `samplesPerPose = 3`. -/
def defaultSamplesPerPose : Nat := 3

/-- Default `poseInstructions.length = 5` (Center, Left, Right, Up, Down). -/
def defaultNumPoses : Nat := 5

/-!
## Service worker (`sw.js`)
-/

/-- An intercepted request, as far as the fetch listener inspects it:
`req.method`, whether `url.origin === location.origin`, and `url.pathname`. -/
structure SWRequest where
  method : String
  sameOrigin : Bool
  pathname : String
deriving DecidableEq

/-- A response, as far as the handlers inspect it: `res.ok`, whether
`res.type === 'opaque'` (named `opq` here), and an identity tag standing for
the body. -/
structure SWResponse where
  ok : Bool
  opq : Bool
  tag : Nat
deriving DecidableEq

/-- Whether the first character list is a prefix of the second. -/
def charsPrefixOf : List Char → List Char → Bool
  | [], _ => true
  | _ :: _, [] => false
  | x :: xs, y :: ys => x == y && charsPrefixOf xs ys

/-- Whether the first character list occurs contiguously in the second:
`String.prototype.includes`. -/
def charsInfixOf (needle : List Char) : List Char → Bool
  | [] => charsPrefixOf needle []
  | y :: ys => charsPrefixOf needle (y :: ys) || charsInfixOf needle ys

/-- `isModelRequest(url)`: `new URL(url).pathname.includes('/models/')`.  The
fetch listener only ever passes `req.url`, a fully qualified URL on which the
`URL` constructor cannot throw, so the catch branch is unreachable there. -/
def isModelRequest (pathname : String) : Bool :=
  charsInfixOf "/models/".toList pathname.toList

/-- Which handler `respondWith` is called with, if any. -/
inductive Strategy where
  | cacheFirst : Strategy
  | staleWhileRevalidate : Strategy
deriving DecidableEq

/-- The dispatch of the fetch listener: non-GET requests return without
handling; same-origin requests use SWR for model assets and cache-first
otherwise; cross-origin requests use SWR. -/
def fetchDispatch (req : SWRequest) : Option Strategy :=
  if req.method ≠ "GET" then none
  else if req.sameOrigin then
    if isModelRequest req.pathname then some Strategy.staleWhileRevalidate
    else some Strategy.cacheFirst
  else some Strategy.staleWhileRevalidate

/-- The cache bucket `face-attendance-v1`, keyed by request. -/
abbrev SWCache := List (SWRequest × SWResponse)

/-- `cache.match(req)`. -/
def cacheMatch : SWCache → SWRequest → Option SWResponse
  | [], _ => none
  | e :: c, req => if e.1 = req then some e.2 else cacheMatch c req

/-- `cache.put(req, res)`: overwrite the entry for the request or add one. -/
def cachePut : SWCache → SWRequest → SWResponse → SWCache
  | [], req, res => [(req, res)]
  | e :: c, req, res => if e.1 = req then (req, res) :: c else e :: cachePut c req res

/-- The `cacheFirst` handler.  `net` is the outcome of `fetch(req)` (`none` =
network failure, i.e. the promise rejects and so does the handler).  Returns
the response produced, if any, and the cache afterwards: a cache hit is
served as is; on a miss the network response is served and cached only when
`res.ok`. -/
def cacheFirstRun (cache : SWCache) (req : SWRequest) (net : Option SWResponse) :
    Option SWResponse × SWCache :=
  match cacheMatch cache req with
  | some c => (some c, cache)
  | none =>
      match net with
      | none => (none, cache)
      | some res => (some res, if res.ok then cachePut cache req res else cache)

/-- The `staleWhileRevalidate` handler.  The background `networkFetch` caches
any `ok` or `opq`-typed response; the handler serves the cached copy if
present, else the network outcome (a rejected fetch falls back to the cached
copy, which on this branch is absent). -/
def swrRun (cache : SWCache) (req : SWRequest) (net : Option SWResponse) :
    Option SWResponse × SWCache :=
  let cached := cacheMatch cache req
  let cache' :=
    match net with
    | some res => if res.ok || res.opq then cachePut cache req res else cache
    | none => cache
  match cached with
  | some c => (some c, cache')
  | none => (net, cache')

/-- `matchDescriptor` as a state transformer on the recognizer state: the
method body reads `this.db` and contains no assignment and no `saveDB` call,
so its state-passing form returns the state unchanged. -/
noncomputable def matchDescriptorS (q : Desc) (st : RecState) : MatchResult × RecState :=
  (matchDescriptor q st.db, st)

/-!
## Lemmas about the top-2 fold of `matchDescriptor`
-/

theorem matchStep_bestDist (q : Desc) (acc : MatchResult) (e : String × List Desc) :
    (matchStep q acc e).bestDist = min acc.bestDist (personBest q e.2) := by
  unfold matchStep
  rcases lt_or_le (personBest q e.2) acc.bestDist with h | h
  · rw [if_pos h, min_eq_right h.le]
  · rw [if_neg (not_lt.mpr h), min_eq_left h]
    rcases lt_or_le (personBest q e.2) acc.secondBest with h' | h'
    · rw [if_pos h']
    · rw [if_neg (not_lt.mpr h')]

theorem matchStep_invariant (q : Desc) (acc : MatchResult) (e : String × List Desc)
    (h : acc.bestDist ≤ acc.secondBest) :
    (matchStep q acc e).bestDist ≤ (matchStep q acc e).secondBest := by
  unfold matchStep
  rcases lt_or_le (personBest q e.2) acc.bestDist with h1 | h1
  · rw [if_pos h1]
    exact h1.le
  · rw [if_neg (not_lt.mpr h1)]
    rcases lt_or_le (personBest q e.2) acc.secondBest with h2 | h2
    · rw [if_pos h2]
      exact h1
    · rw [if_neg (not_lt.mpr h2)]
      exact h

theorem foldl_matchStep_invariant (q : Desc) (db : Store) (acc : MatchResult)
    (h : acc.bestDist ≤ acc.secondBest) :
    (db.foldl (matchStep q) acc).bestDist ≤ (db.foldl (matchStep q) acc).secondBest := by
  induction db generalizing acc with
  | nil => exact h
  | cons e db ih => exact ih _ (matchStep_invariant q acc e h)

/-- C10, first half, as a standalone inequality. -/
theorem matchDescriptor_bestDist_le_secondBest (q : Desc) (db : Store) :
    (matchDescriptor q db).bestDist ≤ (matchDescriptor q db).secondBest :=
  foldl_matchStep_invariant q db ⟨"Unknown", ⊤, ⊤⟩ le_rfl

/-- C10: matching never reports a best distance above the second best, and is
a pure read of the descriptor table: the state-passing form of the method
returns the recognizer state unchanged. -/
theorem matchDescriptor_invariant_and_pure (q : Desc) (st : RecState) :
    (matchDescriptorS q st).1.bestDist ≤ (matchDescriptorS q st).1.secondBest ∧
    (matchDescriptorS q st).2 = st :=
  ⟨matchDescriptor_bestDist_le_secondBest q st.db, rfl⟩

/-- C1: the acceptance rule of `verify`.  The query is attributed to
`bestName` when `bestDist ≤ distanceThreshold` and
`secondBest - bestDist ≥ secondBestMargin`, both inclusively; in every
other case the reported name is `"Unknown"`. -/
theorem verify_acceptance_rule (q : Desc) (db : Store) (threshold margin : ℝ) :
    ((matchDescriptor q db).bestDist ≤ (threshold : EReal) →
      (margin : EReal) ≤ (matchDescriptor q db).secondBest - (matchDescriptor q db).bestDist →
      verifiedName q db threshold margin = (matchDescriptor q db).bestName) ∧
    (¬((matchDescriptor q db).bestDist ≤ (threshold : EReal) ∧
        (margin : EReal) ≤ (matchDescriptor q db).secondBest - (matchDescriptor q db).bestDist) →
      verifiedName q db threshold margin = "Unknown") := by
  constructor
  · intro h1 h2
    unfold verifiedName
    rw [if_pos ⟨h1, h2⟩]
  · intro h
    unfold verifiedName
    rw [if_neg h]

/-!
## Concrete evaluations used by the witnesses
-/

theorem euclid_zz : euclidean [(0 : ℚ)] [(0 : ℚ)] = 0 := by
  have h : sumSq [(0 : ℚ)] [(0 : ℚ)] = 0 := by
    simp [sumSq]
  rw [euclidean, h]
  simp

theorem euclid_zo : euclidean [(0 : ℚ)] [(1 : ℚ)] = 1 := by
  have h : sumSq [(0 : ℚ)] [(1 : ℚ)] = 1 := by
    simp [sumSq]
  rw [euclidean, h]
  simp

theorem personBest_single (q d : Desc) : personBest q [d] = (euclidean q d : EReal) := by
  unfold personBest
  simp only [List.foldl_cons, List.foldl_nil]
  rw [if_pos (EReal.coe_lt_top _)]

/-- The two-person example store used by several witnesses: Alice at distance
0 from the query `[0]`, Bob at distance 1. -/
def dbAB : Store := [("Alice", [[(0 : ℚ)]]), ("Bob", [[(1 : ℚ)]])]

theorem matchDescriptor_dbAB :
    matchDescriptor [(0 : ℚ)] dbAB = ⟨"Alice", ((0 : ℝ) : EReal), ((1 : ℝ) : EReal)⟩ := by
  have h1 : matchStep [(0 : ℚ)] ⟨"Unknown", ⊤, ⊤⟩ ("Alice", [[(0 : ℚ)]]) =
      ⟨"Alice", ((0 : ℝ) : EReal), ⊤⟩ := by
    unfold matchStep
    simp only [personBest_single, euclid_zz]
    rw [if_pos (EReal.coe_lt_top 0)]
  have h2 : matchStep [(0 : ℚ)] ⟨"Alice", ((0 : ℝ) : EReal), ⊤⟩ ("Bob", [[(1 : ℚ)]]) =
      ⟨"Alice", ((0 : ℝ) : EReal), ((1 : ℝ) : EReal)⟩ := by
    unfold matchStep
    simp only [personBest_single, euclid_zo]
    rw [if_neg (by norm_num), if_pos (EReal.coe_lt_top 1)]
  unfold matchDescriptor dbAB
  rw [List.foldl_cons, h1, List.foldl_cons, h2, List.foldl_nil]

theorem personBest_le_mem {q d : Desc} {l : List Desc} (hd : d ∈ l) :
    personBest q l ≤ (euclidean q d : EReal) := by
  rw [personBest_eq_foldl_min, ← List.foldl_map (fun s => (euclidean q s : EReal)) min]
  exact foldl_min_le_mem (List.mem_map_of_mem _ hd)

theorem matchDescriptor_single {q : Desc} {n : String} {l : List Desc} (h : l ≠ []) :
    matchDescriptor q [(n, l)] = ⟨n, personBest q l, ⊤⟩ := by
  unfold matchDescriptor
  rw [List.foldl_cons, List.foldl_nil]
  unfold matchStep
  exact if_pos (personBest_lt_top h)

/-- A query that is itself one of the stored descriptors is at distance 0. -/
theorem personBest_self_mem {q : Desc} {l : List Desc} (hq : q ∈ l) :
    personBest q l = (0 : EReal) := by
  refine le_antisymm ?_ (personBest_nonneg q l)
  have := personBest_le_mem (q := q) hq
  rwa [euclidean_self, EReal.coe_zero] at this

theorem matchStep_bestName (q : Desc) (acc : MatchResult) (e : String × List Desc) :
    (matchStep q acc e).bestName = acc.bestName ∨ (matchStep q acc e).bestName = e.1 := by
  unfold matchStep
  rcases lt_or_le (personBest q e.2) acc.bestDist with h1 | h1
  · rw [if_pos h1]
    exact Or.inr rfl
  · rw [if_neg (not_lt.mpr h1)]
    rcases lt_or_le (personBest q e.2) acc.secondBest with h2 | h2
    · rw [if_pos h2]
      exact Or.inl rfl
    · rw [if_neg (not_lt.mpr h2)]
      exact Or.inl rfl

theorem foldl_matchStep_bestName (q : Desc) (db : Store) (acc : MatchResult) :
    (db.foldl (matchStep q) acc).bestName = acc.bestName ∨
    ∃ e ∈ db, (db.foldl (matchStep q) acc).bestName = e.1 := by
  induction db generalizing acc with
  | nil => exact Or.inl rfl
  | cons e db ih =>
    rw [List.foldl_cons]
    rcases ih (matchStep q acc e) with h | ⟨e', he', h⟩
    · rcases matchStep_bestName q acc e with h' | h'
      · exact Or.inl (h.trans h')
      · exact Or.inr ⟨e, List.mem_cons_self e db, h.trans h'⟩
    · exact Or.inr ⟨e', List.mem_cons_of_mem e he', h⟩

/-- The reported best name is either the sentinel `"Unknown"` or the name of
one of the store's entries. -/
theorem matchDescriptor_bestName_mem (q : Desc) (db : Store) :
    (matchDescriptor q db).bestName = "Unknown" ∨
    ∃ e ∈ db, (matchDescriptor q db).bestName = e.1 :=
  foldl_matchStep_bestName q db ⟨"Unknown", ⊤, ⊤⟩

/-- C3: with exactly one enrolled person the second best stays at infinity
(and in particular never equals that person's own best distance), and a query
identical to one of the stored descriptors is accepted at distance 0 under
the default thresholds. -/
theorem single_person_matching (n : String) (l : List Desc) (q : Desc) (h : l ≠ []) :
    (matchDescriptor q [(n, l)]).secondBest = ⊤ ∧
    (matchDescriptor q [(n, l)]).secondBest ≠ (matchDescriptor q [(n, l)]).bestDist ∧
    (q ∈ l → (matchDescriptor q [(n, l)]).bestDist = (0 : EReal) ∧
      verifiedName q [(n, l)] defaultDistanceThreshold defaultSecondBestMargin = n) := by
  rw [matchDescriptor_single h]
  refine ⟨rfl, ?_, ?_⟩
  · exact (ne_of_gt (personBest_lt_top h))
  · intro hq
    have hpb : personBest q l = (0 : EReal) := personBest_self_mem hq
    refine ⟨hpb, ?_⟩
    have hacc := (verify_acceptance_rule q [(n, l)] defaultDistanceThreshold
      defaultSecondBestMargin).1
    rw [matchDescriptor_single h, hpb] at hacc
    have h1 : (0 : EReal) ≤ ((defaultDistanceThreshold : ℝ) : EReal) := by
      rw [show ((0 : EReal)) = (((0 : ℝ) : EReal)) by norm_num]
      norm_num [defaultDistanceThreshold]
    have h2 : ((defaultSecondBestMargin : ℝ) : EReal) ≤ (⊤ : EReal) - (0 : EReal) := le_top
    exact hacc h1 h2

/-- Witness for C3: store `{"Alice": [v, v]}` with `v = [0]` (the synthetic
0-distance duplicate of the spec scenario), queried with `v`. -/
theorem single_person_matching_witness :
    ([[(0 : ℚ)], [(0 : ℚ)]] : List Desc) ≠ [] ∧
    (matchDescriptor [(0 : ℚ)] [("Alice", [[(0 : ℚ)], [(0 : ℚ)]])]).secondBest = ⊤ ∧
    (matchDescriptor [(0 : ℚ)] [("Alice", [[(0 : ℚ)], [(0 : ℚ)]])]).secondBest ≠
      (matchDescriptor [(0 : ℚ)] [("Alice", [[(0 : ℚ)], [(0 : ℚ)]])]).bestDist ∧
    (matchDescriptor [(0 : ℚ)] [("Alice", [[(0 : ℚ)], [(0 : ℚ)]])]).bestDist = (0 : EReal) ∧
    verifiedName [(0 : ℚ)] [("Alice", [[(0 : ℚ)], [(0 : ℚ)]])]
      defaultDistanceThreshold defaultSecondBestMargin = "Alice" := by
  have h := single_person_matching "Alice" [[(0 : ℚ)], [(0 : ℚ)]] [(0 : ℚ)] (by simp)
  have hq : ([(0 : ℚ)] : Desc) ∈ ([[(0 : ℚ)], [(0 : ℚ)]] : List Desc) := by simp
  exact ⟨by simp, h.1, h.2.1, (h.2.2 hq).1, (h.2.2 hq).2⟩

/-- Counterexample to C4 as literally stated: the sentinel string
`"Unknown"` is itself a possible name.  After `delete('Unknown')` (here on
the empty store, where it is a no-op) a query still returns the string
`"Unknown"` — the deleted name — as its result. -/
theorem delete_unknown_counterexample :
    verifiedName [] (delEntry [] "Unknown") defaultDistanceThreshold
      defaultSecondBestMargin = "Unknown" := by
  show verifiedName [] [] _ _ = "Unknown"
  unfold verifiedName
  rw [if_neg]
  rintro ⟨h1, -⟩
  exact EReal.coe_ne_top _ (top_le_iff.mp h1)

/-- C4, amended: after `delete(name)` a name other than the sentinel
`"Unknown"` is never returned by a query, and a query against the empty
store returns `"Unknown"` with infinite best distance. -/
theorem delete_removes_name (st : RecState) (n : String) (q q' : Desc)
    (threshold margin threshold' margin' : ℝ) :
    (n ≠ "Unknown" → verifiedName q (deleteName st n).db threshold margin ≠ n) ∧
    verifiedName q' [] threshold' margin' = "Unknown" ∧
    (matchDescriptor q' []).bestDist = ⊤ := by
  refine ⟨?_, ?_, rfl⟩
  · intro hn
    have hdb : (deleteName st n).db = delEntry st.db n := rfl
    unfold verifiedName
    rcases Classical.em ((matchDescriptor q (deleteName st n).db).bestDist ≤
        ((threshold : ℝ) : EReal) ∧
        ((margin : ℝ) : EReal) ≤ (matchDescriptor q (deleteName st n).db).secondBest -
          (matchDescriptor q (deleteName st n).db).bestDist) with hc | hc
    · rw [if_pos hc]
      rcases matchDescriptor_bestName_mem q (deleteName st n).db with h | ⟨e, he, h⟩
      · rw [h]
        exact fun contra => hn contra.symm
      · rw [h]
        rw [hdb] at he
        have := List.of_mem_filter he
        simpa using this
    · rw [if_neg hc]
      exact fun contra => hn contra.symm
  · unfold verifiedName
    rw [if_neg]
    rintro ⟨h1, -⟩
    exact EReal.coe_ne_top _ (top_le_iff.mp h1)

/-- Witness for the amended C4: deleting `"Alice"` from a store that only
contains Alice makes a query report something other than `"Alice"`. -/
theorem delete_removes_name_witness :
    ("Alice" : String) ≠ "Unknown" ∧
    verifiedName [(0 : ℚ)] (deleteName ⟨[("Alice", [[(0 : ℚ)]])], none⟩ "Alice").db
      defaultDistanceThreshold defaultSecondBestMargin ≠ "Alice" := by
  refine ⟨by decide, ?_⟩
  exact (delete_removes_name ⟨[("Alice", [[(0 : ℚ)]])], none⟩ "Alice" [(0 : ℚ)] []
    defaultDistanceThreshold defaultSecondBestMargin 0 0).1 (by decide)

/-!
## Store update lemmas
-/

theorem getEntry_setEntry_self (s : Store) (n : String) (v : List Desc) :
    getEntry (setEntry s n v) n = some v := by
  induction s with
  | nil => simp [setEntry, getEntry]
  | cons e s ih =>
    by_cases h : e.1 = n
    · simp [setEntry, h, getEntry]
    · simp [setEntry, h, getEntry, ih]

theorem getEntry_setEntry_ne (s : Store) (n m : String) (v : List Desc) (h : m ≠ n) :
    getEntry (setEntry s n v) m = getEntry s m := by
  induction s with
  | nil =>
    simp only [setEntry, getEntry]
    rw [if_neg (fun hc => h hc.symm)]
  | cons e s ih =>
    by_cases he : e.1 = n
    · simp only [setEntry, if_pos he, getEntry]
      rw [if_neg (fun hc => h hc.symm), if_neg (fun hc : e.1 = m => h (he.symm.trans hc).symm)]
    · simp only [setEntry, if_neg he, getEntry, ih]

/-- C5: an enrollment run whose collection loop gathered nothing fails with
the documented error and leaves the whole recognizer state — in-memory table
and persisted slot alike — untouched. -/
theorem enroll_zero_samples (samplesPerPose numPoses : Nat) (name : String)
    (ticks : List (Option Desc)) (st : RecState)
    (h : collectLoop samplesPerPose numPoses ticks 0 0 [] = []) :
    (enroll samplesPerPose numPoses name ticks st).1 = Except.error enrollFailureMsg ∧
    (enroll samplesPerPose numPoses name ticks st).2 = st := by
  have he : enroll samplesPerPose numPoses name ticks st = (Except.error enrollFailureMsg, st) := by
    unfold enroll
    rw [h]
    rfl
  rw [he]
  exact ⟨rfl, rfl⟩

/-- Witness for C5: two ticks with no usable detection collect nothing. -/
theorem enroll_zero_samples_witness :
    collectLoop defaultSamplesPerPose defaultNumPoses [none, none] 0 0 [] = [] ∧
    (enroll defaultSamplesPerPose defaultNumPoses "Alice" [none, none]
      ⟨[("Bob", [[(2 : ℚ)]])], none⟩).1 = Except.error enrollFailureMsg ∧
    (enroll defaultSamplesPerPose defaultNumPoses "Alice" [none, none]
      ⟨[("Bob", [[(2 : ℚ)]])], none⟩).2 = ⟨[("Bob", [[(2 : ℚ)]])], none⟩ := by
  have h : collectLoop defaultSamplesPerPose defaultNumPoses [none, none] 0 0 [] = [] := rfl
  have := enroll_zero_samples defaultSamplesPerPose defaultNumPoses "Alice" [none, none]
    ⟨[("Bob", [[(2 : ℚ)]])], none⟩ h
  exact ⟨h, this.1, this.2⟩

/-- C6: a successful enrollment replaces the entry for the enrolled name by
exactly the collected list, leaves every other name's entry unchanged, and
persists the mutated table into the slot. -/
theorem enroll_success (samplesPerPose numPoses : Nat) (name : String)
    (ticks : List (Option Desc)) (st : RecState)
    (h : collectLoop samplesPerPose numPoses ticks 0 0 [] ≠ []) :
    (enroll samplesPerPose numPoses name ticks st).1 =
      Except.ok (collectLoop samplesPerPose numPoses ticks 0 0 []).length ∧
    getEntry (enroll samplesPerPose numPoses name ticks st).2.db name =
      some (collectLoop samplesPerPose numPoses ticks 0 0 []) ∧
    (∀ m, m ≠ name →
      getEntry (enroll samplesPerPose numPoses name ticks st).2.db m = getEntry st.db m) ∧
    (enroll samplesPerPose numPoses name ticks st).2.slot =
      some (some (encodeDB (enroll samplesPerPose numPoses name ticks st).2.db)) := by
  have he : enroll samplesPerPose numPoses name ticks st =
      (Except.ok (collectLoop samplesPerPose numPoses ticks 0 0 []).length,
        replace st name (collectLoop samplesPerPose numPoses ticks 0 0 [])) := by
    unfold enroll
    rcases hc : collectLoop samplesPerPose numPoses ticks 0 0 [] with _ | ⟨d, ds⟩
    · exact absurd hc h
    · rfl
  rw [he]
  refine ⟨rfl, ?_, ?_, rfl⟩
  · exact getEntry_setEntry_self st.db name _
  · intro m hm
    exact getEntry_setEntry_ne st.db name m _ hm

/-- Witness for C6: one successful detection enrolls `"Alice"` with the single
collected descriptor, leaving `"Bob"`'s entry alone and persisting. -/
theorem enroll_success_witness :
    collectLoop 1 defaultNumPoses [some [(1 : ℚ)]] 0 0 [] ≠ [] ∧
    (enroll 1 defaultNumPoses "Alice" [some [(1 : ℚ)]]
      ⟨[("Bob", [[(2 : ℚ)]])], none⟩).1 = Except.ok 1 ∧
    getEntry (enroll 1 defaultNumPoses "Alice" [some [(1 : ℚ)]]
      ⟨[("Bob", [[(2 : ℚ)]])], none⟩).2.db "Alice" = some [[(1 : ℚ)]] ∧
    getEntry (enroll 1 defaultNumPoses "Alice" [some [(1 : ℚ)]]
      ⟨[("Bob", [[(2 : ℚ)]])], none⟩).2.db "Bob" =
      getEntry [("Bob", [[(2 : ℚ)]])] "Bob" ∧
    (enroll 1 defaultNumPoses "Alice" [some [(1 : ℚ)]]
      ⟨[("Bob", [[(2 : ℚ)]])], none⟩).2.slot =
      some (some (encodeDB (enroll 1 defaultNumPoses "Alice" [some [(1 : ℚ)]]
        ⟨[("Bob", [[(2 : ℚ)]])], none⟩).2.db)) := by
  have h : collectLoop 1 defaultNumPoses [some [(1 : ℚ)]] 0 0 [] ≠ [] := by
    intro hc
    exact absurd hc (by decide)
  have happ := enroll_success 1 defaultNumPoses "Alice" [some [(1 : ℚ)]]
    ⟨[("Bob", [[(2 : ℚ)]])], none⟩ h
  exact ⟨h, happ.1, happ.2.1, happ.2.2.1 "Bob" (by decide), happ.2.2.2⟩

/-!
## Persistence round-trip and failure handling
-/

theorem mapM_float32_encode (v : List Desc) :
    (v.map fun d => Json.arr (d.map Json.num)).mapM float32OfJson = Except.ok v := by
  induction v with
  | nil => rfl
  | cons d ds ih =>
    rw [List.map_cons, List.mapM_cons, ih]
    have hd : float32OfJson (Json.arr (d.map Json.num)) = Except.ok d := by
      show Except.ok ((d.map Json.num).map toNumber) = Except.ok d
      rw [List.map_map]
      have hfun : toNumber ∘ Json.num = fun q : ℚ => q := rfl
      rw [hfun, List.map_id']
    rw [hd]
    rfl

theorem decodeDB_encodeDB (db : Store) : decodeDB (encodeDB db) = Except.ok db := by
  have key : ∀ l : Store,
      (l.map (fun e => (e.1, Json.arr (e.2.map fun d => Json.arr (d.map Json.num))))).mapM
        (fun e => (decodeEntryVal e.2).map (fun v => (e.1, v))) = Except.ok l := by
    intro l
    induction l with
    | nil => rfl
    | cons e rest ih =>
      rw [List.map_cons, List.mapM_cons, ih]
      have he : decodeEntryVal (Json.arr (e.2.map fun d => Json.arr (d.map Json.num))) =
          Except.ok e.2 := mapM_float32_encode e.2
      rw [he]
      rfl
  exact key db

/-- C7: persisting the store with `saveDB` and reading the slot back with
`loadDB` reproduces the same names mapped to component-wise identical
descriptor vectors. -/
theorem saveDB_loadDB_roundtrip (st : RecState) :
    loadDB (saveDB st).slot = st.db := by
  show (match decodeDB (encodeDB st.db) with
    | Except.ok s => s
    | Except.error _ => []) = st.db
  rw [decodeDB_encodeDB]

/-- C8: a missing value under the storage key yields the empty store, a value
on which `JSON.parse` throws yields the empty store, and a parsed value whose
entry conversion throws yields the empty store — in each case without
surfacing an error. -/
theorem loadDB_failure_empty (j : Json) :
    loadDB none = [] ∧
    loadDB (some none) = [] ∧
    (decodeDB j = Except.error () → loadDB (some (some j)) = []) := by
  refine ⟨rfl, rfl, ?_⟩
  intro h
  show (match decodeDB j with | Except.ok s => s | Except.error _ => []) = []
  rw [h]

/-- Witness for C8: a persisted object whose entry is a string (which has no
`.map` method) makes the conversion throw, and `loadDB` returns `{}`. -/
theorem loadDB_failure_empty_witness :
    decodeDB (Json.obj [("a", Json.str "x")]) = Except.error () ∧
    loadDB (some (some (Json.obj [("a", Json.str "x")]))) = [] := by
  have h : decodeDB (Json.obj [("a", Json.str "x")]) = Except.error () := rfl
  exact ⟨h, (loadDB_failure_empty (Json.obj [("a", Json.str "x")])).2.2 h⟩

/-- C9: the fetch listener handles no non-GET request; a same-origin GET
whose path contains the model segment gets stale-while-revalidate, any other
same-origin GET gets cache-first, and every cross-origin GET gets
stale-while-revalidate; cache-first serves a cached copy as is, otherwise
serves the network response and caches it only when `res.ok`. -/
theorem fetch_strategy_dispatch (req : SWRequest) (cache : SWCache) (net : Option SWResponse)
    (c : SWResponse) :
    (req.method ≠ "GET" → fetchDispatch req = none) ∧
    (req.method = "GET" → req.sameOrigin = true → isModelRequest req.pathname = true →
      fetchDispatch req = some Strategy.staleWhileRevalidate) ∧
    (req.method = "GET" → req.sameOrigin = true → isModelRequest req.pathname = false →
      fetchDispatch req = some Strategy.cacheFirst) ∧
    (req.method = "GET" → req.sameOrigin = false →
      fetchDispatch req = some Strategy.staleWhileRevalidate) ∧
    (cacheMatch cache req = some c → cacheFirstRun cache req net = (some c, cache)) ∧
    (cacheMatch cache req = none → net = none → cacheFirstRun cache req net = (none, cache)) ∧
    (∀ res, cacheMatch cache req = none → net = some res →
      cacheFirstRun cache req net =
        (some res, if res.ok then cachePut cache req res else cache)) := by
  refine ⟨?_, ?_, ?_, ?_, ?_, ?_, ?_⟩
  · intro h
    unfold fetchDispatch
    rw [if_pos h]
  · intro hg hs hm
    unfold fetchDispatch
    rw [if_neg (fun hne => hne hg), if_pos hs, if_pos hm]
  · intro hg hs hm
    unfold fetchDispatch
    rw [if_neg (fun hne => hne hg), if_pos hs, if_neg]
    rw [hm]
    exact Bool.false_ne_true
  · intro hg hs
    unfold fetchDispatch
    rw [if_neg (fun hne => hne hg), if_neg]
    rw [hs]
    exact Bool.false_ne_true
  · intro hhit
    unfold cacheFirstRun
    rw [hhit]
  · intro hmiss hnet
    unfold cacheFirstRun
    rw [hmiss, hnet]
  · intro res hmiss hnet
    unfold cacheFirstRun
    rw [hmiss, hnet]

/-- Witness for C9: one request of each kind — a POST (unhandled), a
same-origin model-asset GET (SWR), a same-origin shell GET (cache-first, and
its behavior on a hit and on a miss with an ok response), and a cross-origin
GET (SWR). -/
theorem fetch_strategy_dispatch_witness :
    fetchDispatch ⟨"POST", true, "/face.html"⟩ = none ∧
    fetchDispatch ⟨"GET", true, "/models/tiny_face_detector_model-weights_manifest.json"⟩ =
      some Strategy.staleWhileRevalidate ∧
    fetchDispatch ⟨"GET", true, "/face.html"⟩ = some Strategy.cacheFirst ∧
    fetchDispatch ⟨"GET", false, "/npm/face-api.min.js"⟩ =
      some Strategy.staleWhileRevalidate ∧
    cacheFirstRun [(⟨"GET", true, "/face.html"⟩, ⟨true, false, 7⟩)]
      ⟨"GET", true, "/face.html"⟩ none =
      (some ⟨true, false, 7⟩, [(⟨"GET", true, "/face.html"⟩, ⟨true, false, 7⟩)]) ∧
    cacheFirstRun [] ⟨"GET", true, "/face.html"⟩ (some ⟨true, false, 7⟩) =
      (some ⟨true, false, 7⟩, cachePut [] ⟨"GET", true, "/face.html"⟩ ⟨true, false, 7⟩) := by
  refine ⟨?_, ?_, ?_, ?_, ?_, ?_⟩
  · exact (fetch_strategy_dispatch ⟨"POST", true, "/face.html"⟩ [] none
      ⟨true, false, 7⟩).1 (by decide)
  · exact (fetch_strategy_dispatch
      ⟨"GET", true, "/models/tiny_face_detector_model-weights_manifest.json"⟩ [] none
      ⟨true, false, 7⟩).2.1 rfl rfl (by decide)
  · exact (fetch_strategy_dispatch ⟨"GET", true, "/face.html"⟩ [] none
      ⟨true, false, 7⟩).2.2.1 rfl rfl (by decide)
  · exact (fetch_strategy_dispatch ⟨"GET", false, "/npm/face-api.min.js"⟩ [] none
      ⟨true, false, 7⟩).2.2.2.1 rfl rfl
  · exact (fetch_strategy_dispatch ⟨"GET", true, "/face.html"⟩
      [(⟨"GET", true, "/face.html"⟩, ⟨true, false, 7⟩)] none
      ⟨true, false, 7⟩).2.2.2.2.1 (by decide)
  · have h := (fetch_strategy_dispatch ⟨"GET", true, "/face.html"⟩ [] (some ⟨true, false, 7⟩)
      ⟨true, false, 7⟩).2.2.2.2.2.2 ⟨true, false, 7⟩ rfl rfl
    simpa using h

/-!
## The top-2 characterization of `matchDescriptor` (C2)
-/

/-- Specification value: the minimum over the store's entries of the
person-best distance to the query. -/
noncomputable def minPB (q : Desc) (db : Store) : EReal :=
  (db.map (fun e => personBest q e.2)).foldl min ⊤

theorem minPB_append_single (q : Desc) (db : Store) (a : String × List Desc) :
    minPB q (db ++ [a]) = min (minPB q db) (personBest q a.2) := by
  unfold minPB
  rw [List.map_append, List.foldl_append]
  rfl

theorem matchDescriptor_append_single (q : Desc) (db : Store) (a : String × List Desc) :
    matchDescriptor q (db ++ [a]) = matchStep q (matchDescriptor q db) a := by
  unfold matchDescriptor
  rw [List.foldl_append]
  rfl

/-- C2, first half: the reported best distance is the least person-best. -/
theorem matchDescriptor_bestDist_eq_minPB (q : Desc) (db : Store) :
    (matchDescriptor q db).bestDist = minPB q db := by
  induction db using List.reverseRecOn with
  | nil => rfl
  | append_singleton db a ih =>
    rw [matchDescriptor_append_single, matchStep_bestDist, ih, minPB_append_single]

theorem matchStep_of_lt_best (q : Desc) (acc : MatchResult) (e : String × List Desc)
    (h : personBest q e.2 < acc.bestDist) :
    matchStep q acc e = ⟨e.1, personBest q e.2, acc.bestDist⟩ := by
  unfold matchStep
  exact if_pos h

theorem matchStep_of_not_lt_best (q : Desc) (acc : MatchResult) (e : String × List Desc)
    (h : ¬ personBest q e.2 < acc.bestDist) :
    (matchStep q acc e).bestName = acc.bestName ∧
    (matchStep q acc e).bestDist = acc.bestDist ∧
    (matchStep q acc e).secondBest = min acc.secondBest (personBest q e.2) := by
  unfold matchStep
  rw [if_neg h]
  rcases lt_or_le (personBest q e.2) acc.secondBest with h2 | h2
  · rw [if_pos h2]
    exact ⟨rfl, rfl, (min_eq_right h2.le).symm⟩
  · rw [if_neg (not_lt.mpr h2)]
    exact ⟨rfl, rfl, (min_eq_left h2).symm⟩

/-- C2, second half, as an auxiliary induction: in a nonempty store of
persons with nonempty descriptor lists and distinct names, the best name is
the name of an entry realizing the least person-best, and the second best is
the least person-best among the *other* entries (so descriptors of the best
person never feed the second best). -/
theorem matchDescriptor_top2_aux (q : Desc) : ∀ db : Store,
    (∀ e ∈ db, e.2 ≠ ([] : List Desc)) → (db.map Prod.fst).Nodup → db ≠ [] →
    ∃ e ∈ db, (matchDescriptor q db).bestName = e.1 ∧
      personBest q e.2 = (matchDescriptor q db).bestDist ∧
      (matchDescriptor q db).secondBest = minPB q (db.filter (fun x => x.1 ≠ e.1)) := by
  intro db
  induction db using List.reverseRecOn with
  | nil => intro _ _ h; exact absurd rfl h
  | append_singleton db a ih =>
    intro hne hnd _
    have hanotin : ∀ x ∈ db, x.1 ≠ a.1 := by
      rw [List.map_append] at hnd
      have hdisj := (List.nodup_append.mp hnd).2.2
      intro x hx hcx
      exact hdisj (hcx ▸ List.mem_map_of_mem Prod.fst hx) (by simp)
    by_cases hdb : db = []
    · subst hdb
      have ha2 : a.2 ≠ [] := hne a (by simp)
      have hstep : matchDescriptor q ([] ++ [a]) =
          ⟨a.1, personBest q a.2, ⊤⟩ := by
        rw [matchDescriptor_append_single]
        exact matchStep_of_lt_best q _ a (personBest_lt_top ha2)
      refine ⟨a, by simp, ?_, ?_, ?_⟩
      · rw [hstep]
      · rw [hstep]
      · rw [hstep]
        have hf : (([] ++ [a]).filter (fun x : String × List Desc => x.1 ≠ a.1)) = [] := by
          simp
        rw [hf]
        rfl
    · have hne' : ∀ e ∈ db, e.2 ≠ ([] : List Desc) :=
        fun e he => hne e (List.mem_append_left _ he)
      have hnd' : (db.map Prod.fst).Nodup := by
        rw [List.map_append] at hnd
        exact (List.nodup_append.mp hnd).1
      obtain ⟨e, he, hname, hdist, hsecond⟩ := ih hne' hnd' hdb
      rcases lt_or_le (personBest q a.2) (matchDescriptor q db).bestDist with h1 | h1
      · -- the appended entry is the new unique best
        refine ⟨a, List.mem_append_right _ (by simp), ?_, ?_, ?_⟩
        · rw [matchDescriptor_append_single, matchStep_of_lt_best q _ a h1]
        · rw [matchDescriptor_append_single, matchStep_of_lt_best q _ a h1]
        · rw [matchDescriptor_append_single, matchStep_of_lt_best q _ a h1]
          show (matchDescriptor q db).bestDist =
            minPB q ((db ++ [a]).filter (fun x => x.1 ≠ a.1))
          have hkeep : (db ++ [a]).filter (fun x => x.1 ≠ a.1) = db := by
            rw [List.filter_append]
            have h2 : db.filter (fun x => x.1 ≠ a.1) = db :=
              List.filter_eq_self.mpr (fun x hx => by
                simpa using hanotin x hx)
            have h3 : ([a] : Store).filter (fun x => x.1 ≠ a.1) = [] := by
              simp
            rw [h2, h3, List.append_nil]
          rw [hkeep, matchDescriptor_bestDist_eq_minPB]
      · -- best and best name unchanged; the appended entry competes for second
        obtain ⟨hsn, hsb, hss⟩ := matchStep_of_not_lt_best q (matchDescriptor q db) a
          (not_lt.mpr h1)
        have hea : a.1 ≠ e.1 := fun hc => hanotin e he hc.symm
        refine ⟨e, List.mem_append_left _ he, ?_, ?_, ?_⟩
        · rw [matchDescriptor_append_single, hsn, hname]
        · rw [matchDescriptor_append_single, hsb, hdist]
        · rw [matchDescriptor_append_single, hss, hsecond]
          have hsplit : (db ++ [a]).filter (fun x => x.1 ≠ e.1) =
              db.filter (fun x => x.1 ≠ e.1) ++ [a] := by
            rw [List.filter_append]
            have h3 : ([a] : Store).filter (fun x => x.1 ≠ e.1) = [a] := by
              simp [hea]
            rw [h3]
          rw [hsplit, minPB_append_single]

/-- C2: `matchDescriptor` returns as `bestDist` the minimum over the enrolled
persons of the person-best distance, as `bestName` the owner of that
minimum, and as `secondBest` the lowest person-best among the other persons;
several descriptors of one person contribute at most one value (their
person-best), so they never feed `secondBest`. -/
theorem matchDescriptor_top2 (q : Desc) (db : Store)
    (hne : ∀ e ∈ db, e.2 ≠ ([] : List Desc))
    (hnd : (db.map Prod.fst).Nodup) :
    (matchDescriptor q db).bestDist = minPB q db ∧
    (db ≠ [] → ∃ e ∈ db, (matchDescriptor q db).bestName = e.1 ∧
      personBest q e.2 = (matchDescriptor q db).bestDist ∧
      (matchDescriptor q db).secondBest = minPB q (db.filter (fun x => x.1 ≠ e.1))) :=
  ⟨matchDescriptor_bestDist_eq_minPB q db, matchDescriptor_top2_aux q db hne hnd⟩

/-- Witness for C2 on the two-person store `dbAB`. -/
theorem matchDescriptor_top2_witness :
    (∀ e ∈ dbAB, e.2 ≠ ([] : List Desc)) ∧
    (dbAB.map Prod.fst).Nodup ∧
    ((matchDescriptor [(0 : ℚ)] dbAB).bestDist = minPB [(0 : ℚ)] dbAB ∧
      (dbAB ≠ [] → ∃ e ∈ dbAB, (matchDescriptor [(0 : ℚ)] dbAB).bestName = e.1 ∧
        personBest [(0 : ℚ)] e.2 = (matchDescriptor [(0 : ℚ)] dbAB).bestDist ∧
        (matchDescriptor [(0 : ℚ)] dbAB).secondBest =
          minPB [(0 : ℚ)] (dbAB.filter (fun x => x.1 ≠ e.1)))) :=
  ⟨by decide, by decide,
    matchDescriptor_top2 [(0 : ℚ)] dbAB (by decide) (by decide)⟩

/-- Witness for C1 at the exact boundary: threshold 0 with best distance
exactly 0, margin 1 with gap exactly 1; the match is accepted and attributed
to Alice. -/
theorem verify_acceptance_rule_witness :
    (matchDescriptor [(0 : ℚ)] dbAB).bestDist ≤ ((0 : ℝ) : EReal) ∧
    ((1 : ℝ) : EReal) ≤ (matchDescriptor [(0 : ℚ)] dbAB).secondBest -
      (matchDescriptor [(0 : ℚ)] dbAB).bestDist ∧
    verifiedName [(0 : ℚ)] dbAB 0 1 = "Alice" := by
  have hb : (matchDescriptor [(0 : ℚ)] dbAB).bestDist ≤ ((0 : ℝ) : EReal) := by
    rw [matchDescriptor_dbAB]
  have hm : ((1 : ℝ) : EReal) ≤ (matchDescriptor [(0 : ℚ)] dbAB).secondBest -
      (matchDescriptor [(0 : ℚ)] dbAB).bestDist := by
    rw [matchDescriptor_dbAB]
    norm_num [← EReal.coe_sub]
  refine ⟨hb, hm, ?_⟩
  have h := (verify_acceptance_rule [(0 : ℚ)] dbAB 0 1).1 hb hm
  rw [h, matchDescriptor_dbAB]
